import Mathlib

/-!
Verification of the task-graph orchestration engine of the NexBuilder
repository.  The definitions below are a shallow embedding of the
TypeScript source: the data model from `types.ts`, the readiness
evaluator from `BuilderBoard` (`pendingReadyTasks` / `isReady`), the
split/rewire engine, execution pipeline, artifact merge and crash
recovery from `App.tsx`, and the file-block extractor from
`services/aiService.ts`.  External collaborators (the AI calls and the
storage layer) appear as explicit parameters: the result of a
collaborator round-trip is passed in as an `Except` value, and the
fresh UUIDs drawn by `crypto.randomUUID()` are passed in as explicit
identifier arguments.
-/

namespace NexBuilder

/-- `TaskStatus` from `types.ts`. -/
inductive TaskStatus where
  | pending
  | in_progress
  | completed
  | failed
  | blocked
deriving DecidableEq

/-- The closed set of agent roles from `types.ts`. -/
inductive AgentRole where
  | architect
  | developer
  | reviewer
  | planner
deriving DecidableEq

/-- `artifactType` values from `types.ts`. -/
inductive ArtifactKind where
  | code
  | text
  | json
deriving DecidableEq

/-- `Task` from `types.ts`.  `output` is optional, set on completion. -/
structure Task where
  id : String
  title : String
  description : String
  status : TaskStatus
  dependencies : List String
  agentRole : AgentRole
  output : Option String := none
  artifactType : Option ArtifactKind := none
deriving DecidableEq

/-- `ProjectFile` from `types.ts`. -/
structure ProjectFile where
  path : String
  content : String
  language : String
deriving DecidableEq

/-- Audit-log event statuses from `types.ts`. -/
inductive LogStatus where
  | started
  | completed
  | failed
  | split
deriving DecidableEq

/-- `ActivityLogEntry` from `types.ts`. -/
structure ActivityLogEntry where
  id : String
  taskId : String
  taskTitle : String
  timestamp : Nat
  status : LogStatus
  details : Option String := none
deriving DecidableEq

/-- `Project` from `types.ts`. -/
structure Project where
  id : String
  name : String
  description : String
  tasks : List Task
  files : List ProjectFile
  packages : List String
  activityLog : List ActivityLogEntry
  createdAt : Nat
deriving DecidableEq

/-- The shape of a project as it may come back from persistence: older
persisted shapes may lack `activityLog` or `packages`, which the loader
models as `Option` fields (`savedProject.activityLog` may be absent). -/
structure PersistedProject where
  id : String
  name : String
  description : String
  tasks : List Task
  files : List ProjectFile
  packages : Option (List String)
  activityLog : Option (List ActivityLogEntry)
  createdAt : Nat
deriving DecidableEq

/-- One subtask tuple as returned by the decomposition collaborator
(`decomposeTask`): `{title, description, agentRole?}`. -/
structure SubTask where
  title : String
  description : String
  agentRole : Option AgentRole := none
deriving DecidableEq

/-- Readiness predicate from `BuilderBoard` (`src/unnamed/part_001`,
lines 41-42): a task is ready when its status is `pending` and every
dependency ID looks up (via `tasks.find`) to a task whose status is
`completed`; a failed lookup (`undefined?.status === 'completed'`)
yields `false`. -/
def isReady (task : Task) (tasks : List Task) : Bool :=
  decide (task.status = TaskStatus.pending) &&
  task.dependencies.all (fun depId =>
    match tasks.find? (fun t => t.id == depId) with
    | some t => decide (t.status = TaskStatus.completed)
    | none => false)

/-- `pendingReadyTasks` from `src/unnamed/part_002`, lines 40-43: the
filter of the task list by the readiness predicate. -/
def pendingReadyTasks (tasks : List Task) : List Task :=
  tasks.filter (fun t => isReady t tasks)

/-- C1: a task is reported ready by the Readiness Evaluator iff it is in
the list, its status is `pending`, and every ID in its dependency list
resolves (via first-match lookup) to a task in the list whose status is
`completed`; moreover a dependency ID that matches no task makes the
task not ready (it is never vacuously satisfied). -/
theorem readiness_spec (tasks : List Task) (t : Task) :
    (t ∈ pendingReadyTasks tasks ↔
      t ∈ tasks ∧ t.status = TaskStatus.pending ∧
        ∀ d ∈ t.dependencies, ∃ u, u ∈ tasks ∧
          tasks.find? (fun x => x.id == d) = some u ∧
          u.status = TaskStatus.completed) ∧
    ((∃ d ∈ t.dependencies, tasks.find? (fun x => x.id == d) = none) →
      t ∉ pendingReadyTasks tasks) := by
  have hmem : t ∈ pendingReadyTasks tasks ↔ t ∈ tasks ∧ isReady t tasks = true := by
    unfold pendingReadyTasks
    exact List.mem_filter
  have hready : isReady t tasks = true ↔
      (t.status = TaskStatus.pending ∧
        ∀ d ∈ t.dependencies, ∃ u, u ∈ tasks ∧
          tasks.find? (fun x => x.id == d) = some u ∧
          u.status = TaskStatus.completed) := by
    unfold isReady
    rw [Bool.and_eq_true, decide_eq_true_eq, List.all_eq_true]
    constructor
    · rintro ⟨hp, hall⟩
      refine ⟨hp, fun d hd => ?_⟩
      have h := hall d hd
      cases hfind : tasks.find? (fun x => x.id == d) with
      | none => rw [hfind] at h; exact absurd h (by simp)
      | some u =>
          rw [hfind] at h
          exact ⟨u, List.mem_of_find?_eq_some hfind, rfl, of_decide_eq_true h⟩
    · rintro ⟨hp, hall⟩
      refine ⟨hp, fun d hd => ?_⟩
      obtain ⟨u, _, hfind, hstat⟩ := hall d hd
      rw [hfind]
      exact decide_eq_true hstat
  constructor
  · rw [hmem, hready]
  · rintro ⟨d, hd, hnone⟩ hin
    obtain ⟨_, _, hall⟩ := (hmem.trans (and_congr_right fun _ => hready)).mp hin
    obtain ⟨u, _, hfind, _⟩ := hall d hd
    rw [hnone] at hfind
    exact Option.noConfusion hfind

/-- Sample completed task used to instantiate the claim theorems. -/
def sampleDone : Task :=
  { id := "a", title := "A", description := "",
    status := TaskStatus.completed, dependencies := [],
    agentRole := AgentRole.developer, output := some "out" }

/-- Sample pending task depending on `sampleDone`. -/
def samplePending : Task :=
  { id := "b", title := "B", description := "",
    status := TaskStatus.pending, dependencies := ["a"],
    agentRole := AgentRole.developer }

/-- Concrete instance of `readiness_spec`: in a two-task list where the
first task is completed, the second (pending, depending on the first)
is reported ready. -/
theorem readiness_spec_witness :
    samplePending ∈ pendingReadyTasks [sampleDone, samplePending] :=
  (readiness_spec [sampleDone, samplePending] samplePending).1.mpr (by decide)

/-- Per-task crash-recovery step from the `init` effect of `App.tsx`
(`src/unnamed/part_000`, lines 72-74): a task whose status is
`in_progress` is reset to `pending`, any other task is untouched. -/
def recoverTask (t : Task) : Task :=
  if t.status = TaskStatus.in_progress then { t with status := TaskStatus.pending } else t

/-- Crash recovery applied at load (`src/unnamed/part_000`, lines
69-77): map `recoverTask` over the tasks and default missing
`activityLog` / `packages` collections to empty. -/
def recoverProject (p : PersistedProject) : Project :=
  { id := p.id, name := p.name, description := p.description,
    tasks := p.tasks.map recoverTask,
    files := p.files,
    packages := p.packages.getD [],
    activityLog := p.activityLog.getD [],
    createdAt := p.createdAt }

/-- C5: recovery maps every `in_progress` task to the same task with
status `pending` and every other field unchanged, leaves tasks with any
other status entirely unchanged, preserves task order and count,
initializes missing `activityLog` / `packages` to empty (keeping them
when present), and repairs nothing else. -/
theorem recovery_spec (p : PersistedProject) (i : Nat) (hi : i < p.tasks.length) :
    (recoverProject p).id = p.id ∧
    (recoverProject p).name = p.name ∧
    (recoverProject p).description = p.description ∧
    (recoverProject p).files = p.files ∧
    (recoverProject p).createdAt = p.createdAt ∧
    (p.packages = none → (recoverProject p).packages = []) ∧
    (∀ ps, p.packages = some ps → (recoverProject p).packages = ps) ∧
    (p.activityLog = none → (recoverProject p).activityLog = []) ∧
    (∀ l, p.activityLog = some l → (recoverProject p).activityLog = l) ∧
    (recoverProject p).tasks.length = p.tasks.length ∧
    ∃ hi2 : i < (recoverProject p).tasks.length,
      ((recoverProject p).tasks.get ⟨i, hi2⟩).id = (p.tasks.get ⟨i, hi⟩).id ∧
      ((recoverProject p).tasks.get ⟨i, hi2⟩).title = (p.tasks.get ⟨i, hi⟩).title ∧
      ((recoverProject p).tasks.get ⟨i, hi2⟩).description = (p.tasks.get ⟨i, hi⟩).description ∧
      ((recoverProject p).tasks.get ⟨i, hi2⟩).agentRole = (p.tasks.get ⟨i, hi⟩).agentRole ∧
      ((recoverProject p).tasks.get ⟨i, hi2⟩).dependencies = (p.tasks.get ⟨i, hi⟩).dependencies ∧
      ((recoverProject p).tasks.get ⟨i, hi2⟩).output = (p.tasks.get ⟨i, hi⟩).output ∧
      ((recoverProject p).tasks.get ⟨i, hi2⟩).artifactType = (p.tasks.get ⟨i, hi⟩).artifactType ∧
      ((p.tasks.get ⟨i, hi⟩).status = TaskStatus.in_progress →
        ((recoverProject p).tasks.get ⟨i, hi2⟩).status = TaskStatus.pending) ∧
      ((p.tasks.get ⟨i, hi⟩).status ≠ TaskStatus.in_progress →
        ((recoverProject p).tasks.get ⟨i, hi2⟩).status = (p.tasks.get ⟨i, hi⟩).status) := by
  refine ⟨rfl, rfl, rfl, rfl, rfl, ?_, ?_, ?_, ?_, ?_, ?_⟩
  · intro h; simp [recoverProject, h]
  · intro ps h; simp [recoverProject, h]
  · intro h; simp [recoverProject, h]
  · intro l h; simp [recoverProject, h]
  · simp [recoverProject]
  · have hi2 : i < (recoverProject p).tasks.length := by
      simpa [recoverProject] using hi
    refine ⟨hi2, ?_⟩
    have hget : (recoverProject p).tasks.get ⟨i, hi2⟩ = recoverTask (p.tasks.get ⟨i, hi⟩) := by
      simp [recoverProject]
    rw [hget]
    unfold recoverTask
    simp only [List.get_eq_getElem] at *
    by_cases h : (p.tasks.get ⟨i, hi⟩).status = TaskStatus.in_progress
    · simp only [List.get_eq_getElem] at h
      simp [h]
    · simp only [List.get_eq_getElem] at h
      simp [h]

/-- Sample persisted project (one `in_progress` task, missing
collections) instantiating `recovery_spec`. -/
def samplePersisted : PersistedProject :=
  { id := "p", name := "P", description := "",
    tasks := [{ id := "a", title := "A", description := "",
                status := TaskStatus.in_progress, dependencies := [],
                agentRole := AgentRole.developer }],
    files := [], packages := none, activityLog := none, createdAt := 0 }

/-- Concrete instance of `recovery_spec` at `samplePersisted`, index 0. -/
theorem recovery_spec_witness :
    0 < samplePersisted.tasks.length ∧
    (recoverProject samplePersisted).files = samplePersisted.files :=
  ⟨by decide, (recovery_spec samplePersisted 0 (by decide)).2.2.2.1⟩

/-- One step of the artifact merge from `handleExecuteTask`
(`src/unnamed/part_000`, lines 340-347): `findIndex` on the accumulated
store, overwrite in place when the path exists, append otherwise. -/
def mergeStep (acc : List ProjectFile) (nf : ProjectFile) : List ProjectFile :=
  match acc.findIdx? (fun f => f.path == nf.path) with
  | some i => acc.set i nf
  | none => acc ++ [nf]

/-- The artifact merge of `handleExecuteTask` (`src/unnamed/part_000`,
lines 339-347): fold the candidate list over the store with
`mergeStep`. -/
def mergeFiles (files newFiles : List ProjectFile) : List ProjectFile :=
  newFiles.foldl mergeStep files

/-- Recursive form of `mergeStep`: replace the first entry with the
candidate's path, or append. -/
def replaceFirst : List ProjectFile → ProjectFile → List ProjectFile
  | [], nf => [nf]
  | f :: fs, nf => if f.path == nf.path then nf :: fs else f :: replaceFirst fs nf

theorem mergeStep_eq_replaceFirst (acc : List ProjectFile) (nf : ProjectFile) :
    mergeStep acc nf = replaceFirst acc nf := by
  induction acc with
  | nil => rfl
  | cons f fs ih =>
      unfold mergeStep replaceFirst
      by_cases h : (f.path == nf.path) = true
      · simp [h]
      · simp only [List.findIdx?_cons, h, Bool.false_eq_true, ↓reduceIte, if_neg]
        rw [← ih]
        unfold mergeStep
        cases hidx : fs.findIdx? (fun f => f.path == nf.path) with
        | none => simp [hidx]
        | some j => simp [hidx]

/-- The last candidate in the list whose path is `p`, if any; the
"last-writer-wins" selector used to state the merge claim. -/
def lastWith (p : String) : List ProjectFile → Option ProjectFile
  | [] => none
  | c :: cs =>
    match lastWith p cs with
    | some r => some r
    | none => if c.path == p then some c else none

theorem replaceFirst_paths (acc : List ProjectFile) (nf : ProjectFile) :
    (replaceFirst acc nf).map ProjectFile.path =
      if nf.path ∈ acc.map ProjectFile.path then acc.map ProjectFile.path
      else acc.map ProjectFile.path ++ [nf.path] := by
  induction acc with
  | nil => simp [replaceFirst]
  | cons f fs ih =>
      unfold replaceFirst
      by_cases h : f.path = nf.path
      · simp [h]
      · have hb : (f.path == nf.path) = false := beq_eq_false_iff_ne.mpr h
        have hne : nf.path ≠ f.path := fun hc => h hc.symm
        by_cases hmem : nf.path ∈ fs.map ProjectFile.path
        · simp [hb, ih, hmem, hne]
        · simp [hb, ih, hmem, hne]

theorem replaceFirst_find (acc : List ProjectFile) (nf : ProjectFile) (p : String) :
    (replaceFirst acc nf).find? (fun f => f.path == p) =
      if nf.path = p then some nf else acc.find? (fun f => f.path == p) := by
  induction acc with
  | nil =>
      by_cases hp : nf.path = p <;> simp [replaceFirst, hp]
  | cons f fs ih =>
      unfold replaceFirst
      by_cases h : f.path = nf.path
      · by_cases hp : nf.path = p
        · simp [h, hp]
        · have hfp : (f.path == p) = false := beq_eq_false_iff_ne.mpr (by rw [h]; exact hp)
          simp [h, hp, hfp, beq_eq_false_iff_ne.mp hfp]
      · have hb : (f.path == nf.path) = false := beq_eq_false_iff_ne.mpr h
        by_cases hp : nf.path = p
        · have hfp : f.path ≠ p := by rw [← hp]; exact h
          simp [hb, hp, hfp, ih]
        · by_cases hfp : f.path = p
          · simp [hb, hfp, hp, Ne.symm hp]
          · have hb2 : (f.path == p) = false := beq_eq_false_iff_ne.mpr hfp
            simp [hb, hb2, hp, ih]

theorem replaceFirst_nodup (acc : List ProjectFile) (nf : ProjectFile)
    (h : (acc.map ProjectFile.path).Nodup) :
    ((replaceFirst acc nf).map ProjectFile.path).Nodup := by
  rw [replaceFirst_paths]
  by_cases hmem : nf.path ∈ acc.map ProjectFile.path
  · simpa [hmem] using h
  · have := List.Nodup.concat hmem h
    simpa [hmem, List.concat_eq_append] using this

theorem mergeFiles_cons (files : List ProjectFile) (c : ProjectFile)
    (cs : List ProjectFile) :
    mergeFiles files (c :: cs) = mergeFiles (replaceFirst files c) cs := by
  simp [mergeFiles, mergeStep_eq_replaceFirst]

theorem mergeFiles_paths (cands files : List ProjectFile) :
    ∃ extra, (mergeFiles files cands).map ProjectFile.path =
        files.map ProjectFile.path ++ extra ∧
      ∀ q ∈ extra, q ∉ files.map ProjectFile.path := by
  induction cands generalizing files with
  | nil => exact ⟨[], by simp [mergeFiles], by simp⟩
  | cons c cs ih =>
      rw [mergeFiles_cons]
      obtain ⟨e, he, hnotin⟩ := ih (replaceFirst files c)
      rw [he, replaceFirst_paths]
      by_cases hmem : c.path ∈ files.map ProjectFile.path
      · refine ⟨e, by simp [hmem], fun q hq => ?_⟩
        have := hnotin q hq
        rw [replaceFirst_paths] at this
        simpa [hmem] using this
      · refine ⟨c.path :: e, by simp [hmem], fun q hq => ?_⟩
        rcases List.mem_cons.mp hq with hq1 | hq2
        · rw [hq1]; exact hmem
        · have := hnotin q hq2
          rw [replaceFirst_paths] at this
          simp only [hmem, if_neg, ite_false] at this
          intro hqq
          exact this (List.mem_append_left _ hqq)

theorem mergeFiles_nodup (cands files : List ProjectFile)
    (h : (files.map ProjectFile.path).Nodup) :
    ((mergeFiles files cands).map ProjectFile.path).Nodup := by
  induction cands generalizing files with
  | nil => simpa [mergeFiles] using h
  | cons c cs ih =>
      rw [mergeFiles_cons]
      exact ih (replaceFirst files c) (replaceFirst_nodup files c h)

theorem mergeFiles_find (cands files : List ProjectFile) (p : String) :
    (mergeFiles files cands).find? (fun f => f.path == p) =
      match lastWith p cands with
      | some c => some c
      | none => files.find? (fun f => f.path == p) := by
  induction cands generalizing files with
  | nil => simp [mergeFiles, lastWith]
  | cons c cs ih =>
      have hcons : lastWith p (c :: cs) =
          match lastWith p cs with
          | some r => some r
          | none => if c.path == p then some c else none := rfl
      rw [mergeFiles_cons, ih (replaceFirst files c), replaceFirst_find, hcons]
      cases hl : lastWith p cs with
      | some r => simp
      | none =>
          by_cases hp : c.path = p
          · simp [hp]
          · have hb : (c.path == p) = false := beq_eq_false_iff_ne.mpr hp
            simp [hp, hb]

theorem find_get_of_nodup (l : List ProjectFile)
    (h : (l.map ProjectFile.path).Nodup) (i : Nat) (hi : i < l.length) :
    l.find? (fun f => f.path == (l.get ⟨i, hi⟩).path) = some (l.get ⟨i, hi⟩) := by
  induction l generalizing i with
  | nil => simp at hi
  | cons f fs ih =>
      cases i with
      | zero => simp
      | succ j =>
          have hj : j < fs.length := by simpa using hi
          have hget : (f :: fs).get ⟨j + 1, hi⟩ = fs.get ⟨j, hj⟩ := rfl
          rw [hget]
          rw [List.map_cons, List.nodup_cons] at h
          have hmem : (fs.get ⟨j, hj⟩).path ∈ fs.map ProjectFile.path :=
            List.mem_map_of_mem _ (List.get_mem fs j hj)
          have hne : f.path ≠ (fs.get ⟨j, hj⟩).path := fun hc =>
            h.1 (by rw [hc]; exact hmem)
          have hb : (f.path == (fs.get ⟨j, hj⟩).path) = false :=
            beq_eq_false_iff_ne.mpr hne
          rw [List.find?_cons_of_neg _ (by simpa using hne), ih h.2 j hj]

/-- C6: merging candidates into a store with pairwise-distinct paths
yields a store with pairwise-distinct paths, at least as many entries,
where the entry at each original position keeps its path and holds the
last candidate with that path (last writer wins) or the original entry
when no candidate touched it; entries beyond the original length carry
only new paths (appended); and a path absent from the store resolves
after the merge to the last candidate with that path. -/
theorem merge_artifacts_spec (files cands : List ProjectFile)
    (h : (files.map ProjectFile.path).Nodup) :
    ((mergeFiles files cands).map ProjectFile.path).Nodup ∧
    files.length ≤ (mergeFiles files cands).length ∧
    (∀ i (hi : i < files.length) (hi2 : i < (mergeFiles files cands).length),
      (mergeFiles files cands).get ⟨i, hi2⟩ =
        (lastWith (files.get ⟨i, hi⟩).path cands).getD (files.get ⟨i, hi⟩)) ∧
    (∀ j (hj : j < (mergeFiles files cands).length), files.length ≤ j →
      ((mergeFiles files cands).get ⟨j, hj⟩).path ∉ files.map ProjectFile.path) ∧
    (∀ p : String, p ∉ files.map ProjectFile.path →
      (mergeFiles files cands).find? (fun f => f.path == p) = lastWith p cands) := by
  obtain ⟨extra, hpaths, hextra⟩ := mergeFiles_paths cands files
  have hnd := mergeFiles_nodup cands files h
  have hlen : (mergeFiles files cands).length = files.length + extra.length := by
    have := congrArg List.length hpaths
    simpa using this
  refine ⟨hnd, by omega, ?_, ?_, ?_⟩
  · intro i hi hi2
    have hpath_i : ((mergeFiles files cands).get ⟨i, hi2⟩).path =
        (files.get ⟨i, hi⟩).path := by
      have h1 : ((mergeFiles files cands).map ProjectFile.path)[i]? =
          (files.map ProjectFile.path)[i]? := by
        rw [hpaths]
        exact List.getElem?_append_left (by simpa using hi)
      simp only [List.getElem?_map, List.getElem?_eq_getElem hi2,
        List.getElem?_eq_getElem hi, Option.map_some] at h1
      simpa using h1
    have hfind_self := find_get_of_nodup (mergeFiles files cands) hnd i hi2
    rw [hpath_i] at hfind_self
    have hfile_self := find_get_of_nodup files h i hi
    have hfindr := mergeFiles_find cands files ((files.get ⟨i, hi⟩).path)
    rw [hfind_self, hfile_self] at hfindr
    cases hl : lastWith (files.get ⟨i, hi⟩).path cands with
    | some c =>
        rw [hl] at hfindr
        simpa using hfindr
    | none =>
        rw [hl] at hfindr
        simpa using hfindr
  · intro j hj hge
    have h1 : ((mergeFiles files cands).map ProjectFile.path)[j]? =
        extra[j - files.length]? := by
      rw [hpaths]
      have : (files.map ProjectFile.path).length ≤ j := by simpa using hge
      rw [List.getElem?_append_right this]
      simp
    rw [List.getElem?_map, List.getElem?_eq_getElem hj] at h1
    have hmem : ((mergeFiles files cands).get ⟨j, hj⟩).path ∈ extra := by
      apply List.getElem?_mem
      rw [← h1]
      simp
    exact hextra _ hmem
  · intro p hp
    rw [mergeFiles_find]
    have hnone : files.find? (fun f => f.path == p) = none := by
      rw [List.find?_eq_none]
      intro x hx hbeq
      exact hp (by rw [← eq_of_beq hbeq]; exact List.mem_map_of_mem _ hx)
    rw [hnone]
    cases lastWith p cands <;> simp

/-- Sample store and candidate batch instantiating
`merge_artifacts_spec`: the overwrite case and the append case. -/
def sampleStore : List ProjectFile :=
  [{ path := "a.ts", content := "one", language := "javascript" },
   { path := "b.css", content := "two", language := "css" }]

/-- Candidate artifacts for the merge witness: an overwrite of `a.ts`
(twice, so the later candidate must win) and a new path. -/
def sampleBatch : List ProjectFile :=
  [{ path := "a.ts", content := "three", language := "javascript" },
   { path := "a.ts", content := "four", language := "javascript" },
   { path := "c.html", content := "five", language := "html" }]

/-- Concrete instance of `merge_artifacts_spec`. -/
theorem merge_artifacts_spec_witness :
    ((sampleStore.map ProjectFile.path).Nodup) ∧
    ((mergeFiles sampleStore sampleBatch).map ProjectFile.path).Nodup :=
  ⟨by decide, (merge_artifacts_spec sampleStore sampleBatch (by decide)).1⟩

/-- A subtask record with defaulted `agentRole` (`st.agentRole ||
'developer'`) as built by `handleSplitTask` (`src/unnamed/part_000`,
lines 248-260). -/
def mkSubtask (st : SubTask) (newId : String) (deps : List String) : Task :=
  { id := newId, title := st.title, description := st.description,
    agentRole := st.agentRole.getD AgentRole.developer,
    status := TaskStatus.pending, dependencies := deps }

/-- Tail of the subtask chain: each subtask depends solely on the
previous subtask's freshly assigned ID. -/
def chainTasks (prevId : String) : List SubTask → List String → List Task
  | [], _ => []
  | _ :: _, [] => []
  | st :: sts, i :: is => mkSubtask st i [prevId] :: chainTasks i sts is

/-- The new-task chain of `handleSplitTask`: subtask 0 inherits the
original task's dependencies, each later subtask depends on its
predecessor's new ID.  The fresh IDs drawn from `crypto.randomUUID()`
are passed in as `newIds`. -/
def buildSubtasks (origDeps : List String) : List SubTask → List String → List Task
  | [], _ => []
  | _ :: _, [] => []
  | st :: sts, i :: is => mkSubtask st i origDeps :: chainTasks i sts is

/-- The per-task edge repair of `handleSplitTask` (`src/unnamed/part_000`,
lines 264-272): when a task depends on the removed task's ID, replace
each occurrence of that ID (in place) by the last subtask's ID. -/
def rewireDep (oldId newId : String) (t : Task) : Task :=
  if oldId ∈ t.dependencies then
    { t with dependencies := t.dependencies.map (fun d => if d = oldId then newId else d) }
  else t

/-- The split/rewire operation `handleSplitTask` from
`src/unnamed/part_000`, lines 220-295.  The leading `split` audit entry
is appended unconditionally; the decomposition collaborator's response
arrives as `subs` (`Except.error` for a collaborator failure); an empty
subtask list raises the error "AI returned no subtasks." and leaves the
graph untouched; otherwise the original task is removed, every
dependency on it is repointed at the last subtask's ID, and the chain
is appended.  Returns the new project and the surfaced error, if any. -/
def splitStartEntry (task : Task) (startId : String) (ts1 : Nat) : ActivityLogEntry :=
  { id := startId, taskId := task.id, taskTitle := task.title,
    timestamp := ts1, status := LogStatus.split,
    details := some "Decomposing task into subtasks..." }

def handleSplitTask (p : Project) (task : Task) (startId : String) (ts1 : Nat)
    (subs : Except String (List SubTask)) (newIds : List String)
    (okId : String) (ts2 : Nat) : Project × Option String :=
  let p1 : Project := { p with activityLog := p.activityLog ++ [splitStartEntry task startId ts1] }
  match subs with
  | Except.error e => (p1, some e)
  | Except.ok subTasksRaw =>
    if subTasksRaw.length = 0 then (p1, some "AI returned no subtasks.")
    else
      let newTasks := buildSubtasks task.dependencies subTasksRaw newIds
      let lastNewTaskId :=
        match newTasks.getLast? with
        | some t => t.id
        | none => ""
      let updatedTasks :=
        (p1.tasks.filter (fun t => t.id != task.id)).map (rewireDep task.id lastNewTaskId)
      let successEntry : ActivityLogEntry :=
        { id := okId, taskId := task.id, taskTitle := task.title,
          timestamp := ts2, status := LogStatus.split,
          details := some ("Successfully split into " ++ toString newTasks.length ++ " subtasks.") }
      let p2 : Project :=
        { p1 with tasks := updatedTasks ++ newTasks,
                  activityLog := p1.activityLog ++ [successEntry] }
      (p2, none)

/-- C4: when the decomposer returns zero subtasks the split raises the
defined failure and the graph is unchanged — same tasks, files,
packages and identity fields — except that the leading "Decomposing"
audit entry remains; no success entry is appended. -/
theorem split_empty_spec (p : Project) (task : Task) (startId okId : String)
    (ts1 ts2 : Nat) (newIds : List String) :
    (handleSplitTask p task startId ts1 (Except.ok []) newIds okId ts2).2 =
      some "AI returned no subtasks." ∧
    (handleSplitTask p task startId ts1 (Except.ok []) newIds okId ts2).1.tasks = p.tasks ∧
    (handleSplitTask p task startId ts1 (Except.ok []) newIds okId ts2).1.files = p.files ∧
    (handleSplitTask p task startId ts1 (Except.ok []) newIds okId ts2).1.packages = p.packages ∧
    (handleSplitTask p task startId ts1 (Except.ok []) newIds okId ts2).1.id = p.id ∧
    (handleSplitTask p task startId ts1 (Except.ok []) newIds okId ts2).1.name = p.name ∧
    (handleSplitTask p task startId ts1 (Except.ok []) newIds okId ts2).1.description = p.description ∧
    (handleSplitTask p task startId ts1 (Except.ok []) newIds okId ts2).1.createdAt = p.createdAt ∧
    (handleSplitTask p task startId ts1 (Except.ok []) newIds okId ts2).1.activityLog =
      p.activityLog ++ [splitStartEntry task startId ts1] ∧
    (splitStartEntry task startId ts1).status = LogStatus.split ∧
    (splitStartEntry task startId ts1).details = some "Decomposing task into subtasks..." := by
  refine ⟨rfl, rfl, rfl, rfl, rfl, rfl, rfl, rfl, rfl, rfl, rfl⟩

/-- Placeholder task used as the default of positional lookups. -/
def dummyTask : Task :=
  { id := "", title := "", description := "", status := TaskStatus.pending,
    dependencies := [], agentRole := AgentRole.developer }

/-- Placeholder subtask used as the default of positional lookups. -/
def dummySub : SubTask := { title := "", description := "" }

theorem chainTasks_length (prev : String) (sts : List SubTask) (is : List String)
    (h : is.length = sts.length) : (chainTasks prev sts is).length = sts.length := by
  induction sts generalizing prev is with
  | nil => simp [chainTasks]
  | cons st sts ih =>
      cases is with
      | nil => simp at h
      | cons i is => simpa [chainTasks] using ih i is (by simpa using h)

theorem buildSubtasks_length (origDeps : List String) (sts : List SubTask)
    (is : List String) (h : is.length = sts.length) :
    (buildSubtasks origDeps sts is).length = sts.length := by
  cases sts with
  | nil => simp [buildSubtasks]
  | cons st sts =>
      cases is with
      | nil => simp at h
      | cons i is =>
          simpa [buildSubtasks] using chainTasks_length i sts is (by simpa using h)

theorem chainTasks_map_id (prev : String) (sts : List SubTask) (is : List String)
    (h : is.length = sts.length) : (chainTasks prev sts is).map Task.id = is := by
  induction sts generalizing prev is with
  | nil =>
      cases is with
      | nil => rfl
      | cons i is => simp at h
  | cons st sts ih =>
      cases is with
      | nil => simp at h
      | cons i is => simp [chainTasks, mkSubtask, ih i is (by simpa using h)]

theorem buildSubtasks_map_id (origDeps : List String) (sts : List SubTask)
    (is : List String) (h : is.length = sts.length) :
    (buildSubtasks origDeps sts is).map Task.id = is := by
  cases sts with
  | nil =>
      cases is with
      | nil => rfl
      | cons i is => simp at h
  | cons st sts =>
      cases is with
      | nil => simp at h
      | cons i is =>
          simp [buildSubtasks, mkSubtask, chainTasks_map_id i sts is (by simpa using h)]

theorem chainTasks_getD (prev : String) (sts : List SubTask) (is : List String)
    (h : is.length = sts.length) (j : Nat) (hj : j < sts.length) :
    (chainTasks prev sts is).getD j dummyTask =
      mkSubtask (sts.getD j dummySub) (is.getD j "") [(prev :: is).getD j ""] := by
  induction sts generalizing prev is j with
  | nil => simp at hj
  | cons st sts ih =>
      cases is with
      | nil => simp at h
      | cons i is =>
          cases j with
          | zero => simp [chainTasks]
          | succ k =>
              have h' : is.length = sts.length := by simpa using h
              have hk : k < sts.length := by simpa using hj
              simpa [chainTasks] using ih i is h' k hk

theorem buildSubtasks_getD (origDeps : List String) (sts : List SubTask)
    (is : List String) (h : is.length = sts.length) (j : Nat) (hj : j < sts.length) :
    (buildSubtasks origDeps sts is).getD j dummyTask =
      if j = 0 then mkSubtask (sts.getD 0 dummySub) (is.getD 0 "") origDeps
      else mkSubtask (sts.getD j dummySub) (is.getD j "") [is.getD (j - 1) ""] := by
  cases sts with
  | nil => simp at hj
  | cons st sts =>
      cases is with
      | nil => simp at h
      | cons i is =>
          cases j with
          | zero => simp [buildSubtasks]
          | succ k =>
              have h' : is.length = sts.length := by simpa using h
              have hk : k < sts.length := by simpa using hj
              simpa [buildSubtasks] using chainTasks_getD i sts is h' k hk

theorem chainTasks_deps_mem (prev : String) (sts : List SubTask) (is : List String) :
    ∀ u ∈ chainTasks prev sts is, u.dependencies = [prev] ∨ ∃ x ∈ is, u.dependencies = [x] := by
  induction sts generalizing prev is with
  | nil => intro u hu; simp [chainTasks] at hu
  | cons st sts ih =>
      cases is with
      | nil => intro u hu; simp [chainTasks] at hu
      | cons i is =>
          intro u hu
          rcases List.mem_cons.mp hu with h1 | h2
          · left; rw [h1]; rfl
          · rcases ih i is u h2 with hA | ⟨x, hx, hB⟩
            · right; exact ⟨i, by simp, hA⟩
            · right; exact ⟨x, by simp [hx], hB⟩

theorem buildSubtasks_deps_mem (origDeps : List String) (sts : List SubTask)
    (is : List String) :
    ∀ u ∈ buildSubtasks origDeps sts is,
      u.dependencies = origDeps ∨ ∃ x ∈ is, u.dependencies = [x] := by
  cases sts with
  | nil => intro u hu; simp [buildSubtasks] at hu
  | cons st sts =>
      cases is with
      | nil => intro u hu; simp [buildSubtasks] at hu
      | cons i is =>
          intro u hu
          rcases List.mem_cons.mp hu with h1 | h2
          · left; rw [h1]; rfl
          · rcases chainTasks_deps_mem i sts is u h2 with hA | ⟨x, hx, hB⟩
            · right; exact ⟨i, by simp, hA⟩
            · right; exact ⟨x, by simp [hx], hB⟩

theorem map_replace_of_not_mem (l : List String) (a b : String) (h : a ∉ l) :
    l.map (fun d => if d = a then b else d) = l := by
  induction l with
  | nil => rfl
  | cons x xs ih =>
      have h1 : ¬ x = a := fun hc => h (by rw [← hc]; exact List.mem_cons_self x xs)
      have h2 : a ∉ xs := fun hc => h (List.mem_cons_of_mem x hc)
      simp [h1, ih h2]

theorem rewireDep_fields (a b : String) (t : Task) :
    (rewireDep a b t).id = t.id ∧ (rewireDep a b t).title = t.title ∧
    (rewireDep a b t).description = t.description ∧
    (rewireDep a b t).status = t.status ∧
    (rewireDep a b t).agentRole = t.agentRole ∧
    (rewireDep a b t).output = t.output ∧
    (rewireDep a b t).dependencies =
      t.dependencies.map (fun d => if d = a then b else d) := by
  unfold rewireDep
  by_cases h : a ∈ t.dependencies
  · simp [h]
  · simp [h, map_replace_of_not_mem t.dependencies a b h]


/-- C2: splitting a task `T` into a non-empty subtask chain (with fresh
IDs distinct from `T`'s, `T` not depending on itself) yields a graph in
which: the surviving tasks come first, each with all fields unchanged
except that every occurrence of `T`'s ID in its dependencies is
replaced, at the same position, by the last subtask's ID; the subtasks
follow in chain order, subtask 0 inheriting `T`'s dependencies and each
later subtask depending exactly on its predecessor's ID; `T`'s ID is the
ID of no task and occurs in no task's dependencies. -/
theorem split_rewire_spec (p : Project) (task : Task) (startId okId : String)
    (ts1 ts2 : Nat) (subs : List SubTask) (newIds : List String)
    (hne : subs ≠ []) (hlen : newIds.length = subs.length)
    (hfresh : task.id ∉ newIds) (hself : task.id ∉ task.dependencies) :
    let res := handleSplitTask p task startId ts1 (Except.ok subs) newIds okId ts2
    let survivors := p.tasks.filter (fun t => t.id != task.id)
    let lastId := newIds.getLastD ""
    res.2 = none ∧
    res.1.tasks.length = survivors.length + subs.length ∧
    (∀ i, i < survivors.length →
      (res.1.tasks.getD i dummyTask).id = (survivors.getD i dummyTask).id ∧
      (res.1.tasks.getD i dummyTask).title = (survivors.getD i dummyTask).title ∧
      (res.1.tasks.getD i dummyTask).description = (survivors.getD i dummyTask).description ∧
      (res.1.tasks.getD i dummyTask).status = (survivors.getD i dummyTask).status ∧
      (res.1.tasks.getD i dummyTask).agentRole = (survivors.getD i dummyTask).agentRole ∧
      (res.1.tasks.getD i dummyTask).output = (survivors.getD i dummyTask).output ∧
      (res.1.tasks.getD i dummyTask).dependencies =
        (survivors.getD i dummyTask).dependencies.map
          (fun d => if d = task.id then lastId else d)) ∧
    (∀ j, survivors.length ≤ j → j < res.1.tasks.length →
      (res.1.tasks.getD j dummyTask).id = newIds.getD (j - survivors.length) "" ∧
      (res.1.tasks.getD j dummyTask).status = TaskStatus.pending ∧
      (res.1.tasks.getD j dummyTask).title =
        (subs.getD (j - survivors.length) dummySub).title ∧
      (res.1.tasks.getD j dummyTask).description =
        (subs.getD (j - survivors.length) dummySub).description ∧
      (res.1.tasks.getD j dummyTask).agentRole =
        ((subs.getD (j - survivors.length) dummySub).agentRole).getD AgentRole.developer ∧
      (res.1.tasks.getD j dummyTask).dependencies =
        (if j = survivors.length then task.dependencies
         else [newIds.getD (j - survivors.length - 1) ""])) ∧
    (∀ u ∈ res.1.tasks, u.id ≠ task.id) ∧
    (∀ u ∈ res.1.tasks, task.id ∉ u.dependencies) := by
  intro res survivors lastId
  have hres : res = handleSplitTask p task startId ts1 (Except.ok subs) newIds okId ts2 := rfl
  have hsurv : survivors = p.tasks.filter (fun t => t.id != task.id) := rfl
  have hlenN : ¬ subs.length = 0 := fun h0 => hne (List.length_eq_zero.mp h0)
  have hidsne : newIds ≠ [] := by
    intro h0
    rw [h0] at hlen
    exact hlenN hlen.symm
  have hlastmem : lastId ∈ newIds := by
    have h1 := List.getLastD_eq_getLast? lastId newIds
    have h2 := List.getLast?_eq_getLast newIds hidsne
    show newIds.getLastD "" ∈ newIds
    rw [List.getLastD_eq_getLast?, h2, Option.getD_some]
    exact List.getLast_mem hidsne
  have hlastne : lastId ≠ task.id := fun hc => hfresh (hc ▸ hlastmem)
  have hNTlen : (buildSubtasks task.dependencies subs newIds).length = subs.length :=
    buildSubtasks_length task.dependencies subs newIds hlen
  have hmapid : (buildSubtasks task.dependencies subs newIds).map Task.id = newIds :=
    buildSubtasks_map_id task.dependencies subs newIds hlen
  have hlastid :
      (match (buildSubtasks task.dependencies subs newIds).getLast? with
       | some t => t.id
       | none => "") = lastId := by
    cases hgl : (buildSubtasks task.dependencies subs newIds).getLast? with
    | none =>
        have hNTnil : buildSubtasks task.dependencies subs newIds = [] :=
          List.getLast?_eq_none_iff.mp hgl
        have : newIds = [] := by rw [← hmapid, hNTnil]; rfl
        exact absurd this hidsne
    | some t =>
        have h1 : newIds.getLast? = some t.id := by
          rw [← hmapid, List.getLast?_map, hgl]
          rfl
        show t.id = newIds.getLastD ""
        rw [List.getLastD_eq_getLast?, h1, Option.getD_some]
  have htasks : res.1.tasks =
      survivors.map (rewireDep task.id lastId) ++
        buildSubtasks task.dependencies subs newIds := by
    rw [hres]
    show (handleSplitTask p task startId ts1 (Except.ok subs) newIds okId ts2).1.tasks = _
    simp only [handleSplitTask]
    rw [if_neg hlenN, hlastid]
  have herr : res.2 = none := by
    rw [hres]
    show (handleSplitTask p task startId ts1 (Except.ok subs) newIds okId ts2).2 = none
    simp only [handleSplitTask]
    rw [if_neg hlenN]
  refine ⟨herr, ?_, ?_, ?_, ?_, ?_⟩
  · rw [htasks]
    simp [hNTlen]
  · intro i hi
    have h1 : res.1.tasks.getD i dummyTask =
        rewireDep task.id lastId (survivors.getD i dummyTask) := by
      rw [htasks, List.getD_eq_getElem?_getD]
      rw [List.getElem?_append_left (by simpa using hi), List.getElem?_map]
      rw [List.getElem?_eq_getElem hi]
      simp [List.getD_eq_getElem?_getD, List.getElem?_eq_getElem hi]
    rw [h1]
    exact rewireDep_fields task.id lastId (survivors.getD i dummyTask)
  · intro j hjge hjlt
    have hjlen : j < survivors.length + subs.length := by
      rw [htasks] at hjlt
      simpa [hNTlen] using hjlt
    have hk : j - survivors.length < subs.length := by omega
    have h1 : res.1.tasks.getD j dummyTask =
        (buildSubtasks task.dependencies subs newIds).getD (j - survivors.length) dummyTask := by
      rw [htasks, List.getD_eq_getElem?_getD]
      rw [List.getElem?_append_right (by simpa using hjge)]
      rw [List.getD_eq_getElem?_getD]
      simp
    rw [h1, buildSubtasks_getD task.dependencies subs newIds hlen (j - survivors.length) hk]
    by_cases hj0 : j = survivors.length
    · have : j - survivors.length = 0 := by omega
      rw [this, hj0]
      simp [mkSubtask]
    · have hne0 : ¬ j - survivors.length = 0 := by omega
      rw [if_neg hne0, if_neg hj0]
      simp [mkSubtask]
  · intro u hu
    rw [htasks] at hu
    rcases List.mem_append.mp hu with hu1 | hu2
    · obtain ⟨v, hv, hvu⟩ := List.mem_map.mp hu1
      have hvne : v.id ≠ task.id := by
        rw [hsurv] at hv
        have hvid := List.of_mem_filter hv
        simpa using hvid
      rw [← hvu]
      have := (rewireDep_fields task.id lastId v).1
      rw [this]
      exact hvne
    · have : u.id ∈ newIds := by
        rw [← hmapid]
        exact List.mem_map_of_mem Task.id hu2
      exact fun hc => hfresh (hc ▸ this)
  · intro u hu
    rw [htasks] at hu
    rcases List.mem_append.mp hu with hu1 | hu2
    · obtain ⟨v, hv, hvu⟩ := List.mem_map.mp hu1
      rw [← hvu]
      have hdep := (rewireDep_fields task.id lastId v).2.2.2.2.2.2
      rw [hdep]
      intro hmem
      obtain ⟨d, hd, hde⟩ := List.mem_map.mp hmem
      by_cases hdc : d = task.id
      · rw [if_pos hdc] at hde
        exact hlastne hde
      · rw [if_neg hdc] at hde
        exact hdc hde
    · rcases buildSubtasks_deps_mem task.dependencies subs newIds u hu2 with hA | ⟨x, hx, hB⟩
      · rw [hA]; exact hself
      · rw [hB]
        intro hmem
        rcases List.mem_singleton.mp hmem with hc
        exact hfresh (hc ▸ hx)

/-- Sample subtask list with two entries for the split witness. -/
def sampleSubs : List SubTask :=
  [{ title := "S1", description := "first" },
   { title := "S2", description := "second", agentRole := some AgentRole.reviewer }]

/-- Sample project for the split witness: a completed dependency, the
task to split, and a downstream task depending on it. -/
def sampleSplitProject : Project :=
  { id := "p", name := "P", description := "",
    tasks := [sampleDone,
      { id := "t", title := "T", description := "", status := TaskStatus.pending,
        dependencies := ["a"], agentRole := AgentRole.developer },
      { id := "z", title := "Z", description := "", status := TaskStatus.pending,
        dependencies := ["t"], agentRole := AgentRole.developer }],
    files := [], packages := [], activityLog := [], createdAt := 0 }

/-- The task being split in the witness instance. -/
def sampleSplitTask : Task :=
  { id := "t", title := "T", description := "", status := TaskStatus.pending,
    dependencies := ["a"], agentRole := AgentRole.developer }

/-- Concrete instance of `split_rewire_spec`. -/
theorem split_rewire_spec_witness :
    (handleSplitTask sampleSplitProject sampleSplitTask "l1" 1 (Except.ok sampleSubs)
      ["n1", "n2"] "l2" 2).2 = none :=
  (split_rewire_spec sampleSplitProject sampleSplitTask "l1" "l2" 1 2 sampleSubs
    ["n1", "n2"] (by decide) (by decide) (by decide) (by decide)).1

/-- The set JavaScript regular expressions match for a whitespace
character class (the `\s` of the extraction pattern in
`services/aiService.ts`, line 19). -/
def isJsSpace (c : Char) : Bool :=
  c == ' ' || c == '\t' || c == '\n' || c == '\r' ||
  c == '\x0b' || c == '\x0c' || c == ' ' || c == ' ' ||
  (' ' ≤ c && c ≤ ' ') ||
  c == ' ' || c == ' ' || c == ' ' || c == ' ' ||
  c == '　' || c == '﻿'

/-- The quote class of the extraction pattern: a double or single
quote. -/
def isQuoteChar (c : Char) : Bool := c == '"' || c == '\''

/-- Consume an exact literal token at the head of the input. -/
def dropToken (pat s : List Char) : Option (List Char) :=
  if s.take pat.length = pat then some (s.drop pat.length) else none

/-- Lazy-content matching of the extraction pattern: split the input at
the first occurrence of the closing tag, returning the content before
it and the remainder after it. -/
def splitAtCloseTag : List Char → Option (List Char × List Char)
  | [] => none
  | c :: cs =>
    if (c :: cs).take 7 = "</file>".data then some ([], (c :: cs).drop 7)
    else
      match splitAtCloseTag cs with
      | some cr => some (c :: cr.1, cr.2)
      | none => none

/-- One-or-more whitespace characters (the pattern's greedy
whitespace), returning the rest of the input. -/
def takeSpaces1 (s : List Char) : Option (List Char) :=
  if (s.takeWhile isJsSpace).length = 0 then none else some (s.dropWhile isJsSpace)

/-- A single quote character. -/
def takeQuote : List Char → Option (List Char)
  | [] => none
  | c :: cs => if isQuoteChar c then some cs else none

/-- One-or-more non-quote characters (the greedy path capture),
returning the captured path and the rest of the input. -/
def takePath (s : List Char) : Option (List Char × List Char) :=
  let p := s.takeWhile (fun c => !(isQuoteChar c))
  if p.length = 0 then none else some (p, s.dropWhile (fun c => !(isQuoteChar c)))

/-- One attempted match of the extraction pattern of
`extractFilesFromOutput` at the head of the input: the literal
opening, one-or-more whitespace, the `path=` literal, a quote, the
non-empty quote-free path capture, a quote, optional whitespace, the
closing bracket, then the lazy content up to the first closing tag.
Returns the path capture, the raw content capture and the remainder. -/
def matchFileAt (s : List Char) : Option (List Char × List Char × List Char) :=
  (dropToken "<file".data s).bind fun s1 =>
  (takeSpaces1 s1).bind fun s2 =>
  (dropToken "path=".data s2).bind fun s3 =>
  (takeQuote s3).bind fun s4 =>
  (takePath s4).bind fun ps =>
  (takeQuote ps.2).bind fun s5 =>
  (dropToken ">".data (s5.dropWhile isJsSpace)).bind fun s6 =>
  (splitAtCloseTag s6).map fun cr => (ps.1, cr.1, cr.2)

theorem dropToken_sound {pat s r : List Char} (h : dropToken pat s = some r) :
    s = pat ++ r := by
  unfold dropToken at h
  by_cases hc : s.take pat.length = pat
  · rw [if_pos hc] at h
    injection h with h2
    rw [← h2]
    conv_lhs => rw [← List.take_append_drop pat.length s]
    rw [hc]
  · rw [if_neg hc] at h
    exact absurd h (by simp)

theorem splitAtCloseTag_sound : ∀ {s c r : List Char},
    splitAtCloseTag s = some (c, r) → s = c ++ "</file>".data ++ r := by
  intro s
  induction s with
  | nil => intro c r h; simp [splitAtCloseTag] at h
  | cons x xs ih =>
      intro c r h
      unfold splitAtCloseTag at h
      by_cases h7 : (x :: xs).take 7 = "</file>".data
      · rw [if_pos h7] at h
        injection h with h2
        injection h2 with hc hr
        rw [← hc, ← hr]
        have h77 : ("</file>".data).length = 7 := rfl
        calc x :: xs = (x :: xs).take 7 ++ (x :: xs).drop 7 :=
              (List.take_append_drop 7 (x :: xs)).symm
          _ = [] ++ "</file>".data ++ (x :: xs).drop 7 := by rw [h7]; rfl
      · rw [if_neg h7] at h
        cases hrec : splitAtCloseTag xs with
        | none => rw [hrec] at h; exact absurd h (by simp)
        | some cr =>
            rw [hrec] at h
            injection h with h2
            injection h2 with hc hr
            rw [← hc, ← hr]
            have := ih hrec
            rw [List.cons_append, List.cons_append, ← this]

theorem takeSpaces1_sound {s r : List Char} (h : takeSpaces1 s = some r) :
    r = s.dropWhile isJsSpace := by
  unfold takeSpaces1 at h
  by_cases hc : (s.takeWhile isJsSpace).length = 0
  · rw [if_pos hc] at h; exact absurd h (by simp)
  · rw [if_neg hc] at h; injection h with h2; exact h2.symm

theorem takeQuote_sound : ∀ {s r : List Char}, takeQuote s = some r →
    ∃ q, isQuoteChar q = true ∧ s = q :: r := by
  intro s r h
  cases s with
  | nil => simp [takeQuote] at h
  | cons c cs =>
      simp only [takeQuote] at h
      by_cases hc : isQuoteChar c = true
      · rw [if_pos hc] at h
        injection h with h2
        exact ⟨c, hc, by rw [h2]⟩
      · rw [if_neg hc] at h; exact absurd h (by simp)

theorem takePath_sound {s : List Char} {p2 r2 : List Char}
    (h : takePath s = some (p2, r2)) :
    p2 = s.takeWhile (fun c => !(isQuoteChar c)) ∧
    r2 = s.dropWhile (fun c => !(isQuoteChar c)) ∧ p2 ≠ [] := by
  unfold takePath at h
  by_cases hc : (s.takeWhile (fun c => !(isQuoteChar c))).length = 0
  · rw [if_pos hc] at h; exact absurd h (by simp)
  · rw [if_neg hc] at h
    injection h with h2
    injection h2 with ha hb
    refine ⟨ha.symm, hb.symm, fun hnil => hc ?_⟩
    rw [ha, hnil]
    rfl

theorem matchFileAt_length {s : List Char} {pcr : List Char × List Char × List Char}
    (h : matchFileAt s = some pcr) : pcr.2.2.length < s.length := by
  unfold matchFileAt at h
  simp only [Option.bind_eq_some, Option.map_eq_some'] at h
  obtain ⟨s1, h1, s2, h2, s3, h3, s4, h4, ps, h5, s5, h6, s6, h7, cr, h8, h9⟩ := h
  obtain ⟨ps1, ps2⟩ := ps
  obtain ⟨cc, rr⟩ := cr
  have e1 : s = "<file".data ++ s1 := dropToken_sound h1
  have e2 : s2 = s1.dropWhile isJsSpace := takeSpaces1_sound h2
  have e3 : s2 = "path=".data ++ s3 := dropToken_sound h3
  obtain ⟨q1, _, e4⟩ := takeQuote_sound h4
  obtain ⟨e5a, e5b, _⟩ := takePath_sound h5
  obtain ⟨q2, _, e6⟩ := takeQuote_sound h6
  have e7 : s5.dropWhile isJsSpace = ">".data ++ s6 := dropToken_sound h7
  have e8 : s6 = cc ++ "</file>".data ++ rr := splitAtCloseTag_sound h8
  have l2 : s2.length ≤ s1.length := by
    rw [e2]; exact (List.dropWhile_sublist isJsSpace).length_le
  have l5 : ps2.length ≤ s4.length := by
    rw [e5b]; exact (List.dropWhile_sublist _).length_le
  have l7 : (s5.dropWhile isJsSpace).length ≤ s5.length :=
    (List.dropWhile_sublist isJsSpace).length_le
  have c1 := congrArg List.length e1
  have c3 := congrArg List.length e3
  have c4 := congrArg List.length e4
  have c6 := congrArg List.length e6
  have c7 := congrArg List.length e7
  have c8 := congrArg List.length e8
  simp [List.length_append] at c1 c3 c4 c6 c7 c8
  rw [← h9]
  show rr.length < s.length
  omega

/-- The global scan of `extractFilesFromOutput` (`services/aiService.ts`,
lines 16-37): repeatedly find the leftmost match of the pattern, emit
its path and raw content captures, and resume after the match (the
`regex.exec` loop with the `g` flag); positions where no match starts
are skipped one character at a time. -/
def extractLoop : List Char → List (List Char × List Char)
  | [] => []
  | c :: cs =>
    match h : matchFileAt (c :: cs) with
    | some pcr => (pcr.1, pcr.2.1) :: extractLoop pcr.2.2
    | none => extractLoop cs
termination_by s => s.length
decreasing_by
  · exact matchFileAt_length h
  · simp

/-- JavaScript `String.prototype.trim`: strip whitespace from both
ends. -/
def trimChars (l : List Char) : List Char :=
  ((l.dropWhile isJsSpace).reverse.dropWhile isJsSpace).reverse

/-- JavaScript `String.prototype.endsWith`, character-exact: the last
`suf.length` characters equal `suf`. -/
def strEndsWith (s suf : String) : Bool :=
  decide (s.data.drop (s.data.length - suf.data.length) = suf.data) &&
  decide (suf.data.length ≤ s.data.length)

/-- The language-inference if-chain of `extractFilesFromOutput`
(`services/aiService.ts`, lines 27-32). -/
def inferLanguage (path : String) : String :=
  let lang0 := "plaintext"
  let lang1 :=
    if strEndsWith path ".js" || strEndsWith path ".jsx" ||
       strEndsWith path ".ts" || strEndsWith path ".tsx" then "javascript" else lang0
  let lang2 := if strEndsWith path ".html" then "html" else lang1
  let lang3 := if strEndsWith path ".css" then "css" else lang2
  if strEndsWith path ".json" then "json" else lang3

/-- `extractFilesFromOutput` from `services/aiService.ts`, lines 16-37:
all pattern matches in order of first occurrence, each content capture
trimmed, with the language inferred from the path extension. -/
def extractFilesFromOutput (text : String) : List ProjectFile :=
  (extractLoop text.data).map fun pc =>
    { path := String.mk pc.1, content := String.mk (trimChars pc.2),
      language := inferLanguage (String.mk pc.1) }

/-- The `started` audit entry appended before the executor call
(`src/unnamed/part_000`, lines 301-307). -/
def execStartEntry (task : Task) (startId : String) (ts1 : Nat) : ActivityLogEntry :=
  { id := startId, taskId := task.id, taskTitle := task.title,
    timestamp := ts1, status := LogStatus.started }

/-- The truncated completion summary (`src/unnamed/part_000`, line 355):
the first 300 characters of the output, plus an ellipsis marker when
the output is longer than 300 characters. -/
def truncateDetails (output : String) : String :=
  output.take 300 ++ (if output.length > 300 then "..." else "")

/-- The `completed` audit entry of a successful execution
(`src/unnamed/part_000`, lines 349-356). -/
def execSuccessEntry (task : Task) (endId : String) (ts2 : Nat) (output : String) :
    ActivityLogEntry :=
  { id := endId, taskId := task.id, taskTitle := task.title, timestamp := ts2,
    status := LogStatus.completed, details := some (truncateDetails output) }

/-- The `failed` audit entry of an execution error
(`src/unnamed/part_000`, lines 370-377): `details` is the error
message. -/
def execFailEntry (task : Task) (endId : String) (ts2 : Nat) (msg : String) :
    ActivityLogEntry :=
  { id := endId, taskId := task.id, taskTitle := task.title, timestamp := ts2,
    status := LogStatus.failed, details := some msg }

/-- The context string assembled before invoking the executor
(`src/unnamed/part_000`, lines 322-331): one block per dependency ID in
order (`Task "<title>":` and the output, an unresolved ID contributing
the empty string), joined by a blank line, then — only when at least
one artifact exists — a newline, the `Existing Files:` header and one
`- <path>` line per artifact. -/
def buildContext (task : Task) (tasks : List Task) (files : List ProjectFile) : String :=
  let context := String.intercalate "\n\n" (task.dependencies.map (fun depId =>
    match tasks.find? (fun t => t.id == depId) with
    | some t => "Task \"" ++ t.title ++ "\":\n" ++ t.output.getD "undefined"
    | none => ""))
  let fileContext :=
    if files.length > 0 then
      "\nExisting Files:\n" ++ String.intercalate "\n" (files.map (fun f => "- " ++ f.path))
    else ""
  context ++ fileContext

/-- The execution orchestrator `handleExecuteTask` from
`src/unnamed/part_000`, lines 297-390.  The task is marked
`in_progress` and a `started` entry is appended before the collaborator
call; the collaborator round-trip is the function `exec` applied to the
assembled context.  On success the output's file blocks are merged into
the store, the task becomes `completed` with the full output stored; on
error the task becomes `failed` (output untouched), the error message
is logged and surfaced. -/
def handleExecuteTask (p : Project) (task : Task) (startId : String) (ts1 : Nat)
    (exec : String → Except String String) (endId : String) (ts2 : Nat) :
    Project × Option String :=
  let p1 : Project :=
    { p with
      tasks := p.tasks.map (fun t =>
        if t.id = task.id then { t with status := TaskStatus.in_progress } else t),
      activityLog := p.activityLog ++ [execStartEntry task startId ts1] }
  match exec (buildContext task p.tasks p.files) with
  | Except.error e =>
      let p2 : Project :=
        { p1 with
          tasks := p1.tasks.map (fun t =>
            if t.id = task.id then { t with status := TaskStatus.failed } else t),
          activityLog := p1.activityLog ++ [execFailEntry task endId ts2 e] }
      (p2, some e)
  | Except.ok output =>
      let newFiles := extractFilesFromOutput output
      let updatedFiles := mergeFiles p1.files newFiles
      let p2 : Project :=
        { p1 with
          files := updatedFiles,
          tasks := p1.tasks.map (fun t =>
            if t.id = task.id then
              { t with status := TaskStatus.completed, output := some output }
            else t),
          activityLog := p1.activityLog ++ [execSuccessEntry task endId ts2 output] }
      (p2, none)

/-- C3: when the executor collaborator errs, the target task ends with
status `failed` and output still unset (given the invariant that a
non-completed task has no output), the artifact store is untouched, the
appended audit events are exactly the `started` entry and a `failed`
entry whose details are the error message, and the error is surfaced;
recovery leaves the failed task (and any failed task) unchanged. -/
theorem execute_failure_spec (p : Project) (task : Task) (startId endId : String)
    (ts1 ts2 : Nat) (e : String) (exec : String → Except String String)
    (hexec : exec (buildContext task p.tasks p.files) = Except.error e)
    (hout : ∀ t ∈ p.tasks, t.id = task.id → t.output = none) :
    (handleExecuteTask p task startId ts1 exec endId ts2).2 = some e ∧
    (handleExecuteTask p task startId ts1 exec endId ts2).1.files = p.files ∧
    (∀ t ∈ (handleExecuteTask p task startId ts1 exec endId ts2).1.tasks,
      t.id = task.id → t.status = TaskStatus.failed ∧ t.output = none) ∧
    (handleExecuteTask p task startId ts1 exec endId ts2).1.activityLog =
      p.activityLog ++ [execStartEntry task startId ts1, execFailEntry task endId ts2 e] ∧
    (execFailEntry task endId ts2 e).details = some e ∧
    (execFailEntry task endId ts2 e).status = LogStatus.failed ∧
    (∀ t ∈ (handleExecuteTask p task startId ts1 exec endId ts2).1.tasks,
      t.id = task.id → recoverTask t = t) ∧
    (∀ t : Task, t.status = TaskStatus.failed → recoverTask t = t) := by
  have hred2 : (handleExecuteTask p task startId ts1 exec endId ts2).2 = some e := by
    unfold handleExecuteTask
    rw [hexec]
  have hredfiles : (handleExecuteTask p task startId ts1 exec endId ts2).1.files = p.files := by
    unfold handleExecuteTask
    rw [hexec]
  have hredlog : (handleExecuteTask p task startId ts1 exec endId ts2).1.activityLog =
      (p.activityLog ++ [execStartEntry task startId ts1]) ++ [execFailEntry task endId ts2 e] := by
    unfold handleExecuteTask
    rw [hexec]
  have hredtasks : (handleExecuteTask p task startId ts1 exec endId ts2).1.tasks =
      (p.tasks.map (fun t =>
        if t.id = task.id then { t with status := TaskStatus.in_progress } else t)).map
        (fun t => if t.id = task.id then { t with status := TaskStatus.failed } else t) := by
    unfold handleExecuteTask
    rw [hexec]
  have htmem : ∀ t ∈ (handleExecuteTask p task startId ts1 exec endId ts2).1.tasks,
      t.id = task.id → t.status = TaskStatus.failed ∧ t.output = none := by
    intro t ht hid
    rw [hredtasks, List.map_map] at ht
    obtain ⟨t0, ht0, hteq⟩ := List.mem_map.mp ht
    by_cases h0 : t0.id = task.id
    · rw [← hteq]
      simp only [Function.comp, h0, ite_true, if_pos]
      exact ⟨trivial, hout t0 ht0 h0⟩
    · exfalso
      rw [← hteq] at hid
      simp only [Function.comp, h0, ite_false, if_neg] at hid
  refine ⟨hred2, hredfiles, htmem, ?_, rfl, rfl, ?_, ?_⟩
  · rw [hredlog]
    simp
  · intro t ht hid
    have := htmem t ht hid
    unfold recoverTask
    rw [this.1]
    simp
  · intro t hstat
    unfold recoverTask
    rw [hstat]
    simp

/-- Sample project with one pending task, used by the execution
witnesses. -/
def sampleExecProject : Project :=
  { id := "p", name := "P", description := "",
    tasks := [samplePending, sampleDone], files := [], packages := [],
    activityLog := [], createdAt := 0 }

/-- Concrete instance of `execute_failure_spec`: a failing collaborator
leaves the store unchanged and surfaces the message. -/
theorem execute_failure_spec_witness :
    (handleExecuteTask sampleExecProject samplePending "s" 1
      (fun _ => Except.error "boom") "f" 2).2 = some "boom" :=
  (execute_failure_spec sampleExecProject samplePending "s" "f" 1 2 "boom"
    (fun _ => Except.error "boom") rfl (by decide)).1

theorem extractLoop_nil : extractLoop [] = [] := by
  conv_lhs => unfold extractLoop

theorem extractLoop_cons_none {c : Char} {cs : List Char}
    (h0 : matchFileAt (c :: cs) = none) :
    extractLoop (c :: cs) = extractLoop cs := by
  conv_lhs => unfold extractLoop
  split
  · rename_i pcr heq
    rw [h0] at heq
    exact absurd heq (by simp)
  · rfl

theorem extractLoop_cons_some {c : Char} {cs : List Char}
    {pcr : List Char × List Char × List Char}
    (h0 : matchFileAt (c :: cs) = some pcr) :
    extractLoop (c :: cs) = (pcr.1, pcr.2.1) :: extractLoop pcr.2.2 := by
  conv_lhs => unfold extractLoop
  split
  · rename_i pcr2 heq
    rw [h0] at heq
    injection heq with h2
    rw [h2]
  · rename_i heq
    rw [h0] at heq
    exact absurd heq (by simp)

theorem extractLoop_of_no_match :
    ∀ s : List Char, (∀ j, j < s.length → matchFileAt (s.drop j) = none) →
      extractLoop s = [] := by
  intro s
  induction s with
  | nil => intro _; exact extractLoop_nil
  | cons c cs ih =>
      intro h
      have h0 : matchFileAt (c :: cs) = none := by
        have := h 0 (by simp)
        simpa using this
      rw [extractLoop_cons_none h0]
      refine ih (fun j hj => ?_)
      have := h (j + 1) (by simpa using Nat.succ_lt_succ hj)
      simpa using this

/-- C10: an output in which the pattern matches at no position yields an
empty extraction, and a successful execution with such an output leaves
the artifact store exactly unchanged. -/
theorem no_blocks_frame_spec (p : Project) (task : Task) (startId endId : String)
    (ts1 ts2 : Nat) (o : String) (exec : String → Except String String)
    (hexec : exec (buildContext task p.tasks p.files) = Except.ok o)
    (h : ∀ j, j < o.data.length → matchFileAt (o.data.drop j) = none) :
    extractFilesFromOutput o = [] ∧
    (handleExecuteTask p task startId ts1 exec endId ts2).1.files = p.files := by
  have hext : extractFilesFromOutput o = [] := by
    unfold extractFilesFromOutput
    rw [extractLoop_of_no_match o.data h]
    rfl
  refine ⟨hext, ?_⟩
  have hfiles : (handleExecuteTask p task startId ts1 exec endId ts2).1.files =
      mergeFiles p.files (extractFilesFromOutput o) := by
    unfold handleExecuteTask
    rw [hexec]
  rw [hfiles, hext]
  rfl

set_option maxRecDepth 8000 in
/-- Concrete instance of `no_blocks_frame_spec` at output "hello". -/
theorem no_blocks_frame_spec_witness :
    extractFilesFromOutput "hello" = [] ∧
    (handleExecuteTask sampleExecProject samplePending "s" 1
      (fun _ => Except.ok "hello") "e" 2).1.files = sampleExecProject.files :=
  no_blocks_frame_spec sampleExecProject samplePending "s" "e" 1 2 "hello"
    (fun _ => Except.ok "hello") rfl (by decide)

/-- C9 (amended): the appended `completed` audit event's details are the
first 300 characters of the output plus an ellipsis marker when the
output is longer; the details of a completion event are therefore at
most 303 characters long (300 of content plus the 3-character marker),
not 300 as claimed. -/
theorem truncation_amended_spec (p : Project) (task : Task) (startId endId : String)
    (ts1 ts2 : Nat) (o : String) (exec : String → Except String String)
    (hexec : exec (buildContext task p.tasks p.files) = Except.ok o) :
    (handleExecuteTask p task startId ts1 exec endId ts2).1.activityLog =
      (p.activityLog ++ [execStartEntry task startId ts1]) ++
        [execSuccessEntry task endId ts2 o] ∧
    (execSuccessEntry task endId ts2 o).details =
      some (o.take 300 ++ (if o.length > 300 then "..." else "")) ∧
    (execSuccessEntry task endId ts2 o).status = LogStatus.completed ∧
    (∀ d, (execSuccessEntry task endId ts2 o).details = some d → d.length ≤ 303) := by
  refine ⟨?_, rfl, rfl, ?_⟩
  · unfold handleExecuteTask
    rw [hexec]
  · intro d hd
    have hdt : d = truncateDetails o := by
      have h1 : (execSuccessEntry task endId ts2 o).details =
          some (truncateDetails o) := rfl
      rw [h1] at hd
      exact (Option.some_inj.mp hd).symm
    rw [hdt]
    unfold truncateDetails
    rw [String.length_append]
    have htake : (o.take 300).length ≤ 300 := by
      rw [String.take_eq]
      have h2 : (String.mk (o.data.take 300)).length = (o.data.take 300).length := rfl
      rw [h2, List.length_take]
      omega
    by_cases hlen : o.length > 300
    · rw [if_pos hlen]
      have h3 : ("..." : String).length = 3 := rfl
      omega
    · rw [if_neg hlen]
      have h3 : ("" : String).length = 0 := rfl
      omega

/-- Concrete instance of `truncation_amended_spec`. -/
theorem truncation_amended_spec_witness :
    (execSuccessEntry samplePending "e" 2 "out").status = LogStatus.completed :=
  (truncation_amended_spec sampleExecProject samplePending "s" "e" 1 2 "out"
    (fun _ => Except.ok "out") rfl).2.2.1

/-- A 301-character output, long enough to trigger truncation. -/
def longOutput : String := String.mk (List.replicate 301 'a')

/-- C9 (counterexample): for a 301-character output the `completed`
event's details are 303 characters long — the claim that completion
details are at most 300 characters long fails. -/
theorem truncation_counterexample :
    300 < ((execSuccessEntry samplePending "x" 7 longOutput).details.getD "").length := by
  have h1 : (execSuccessEntry samplePending "x" 7 longOutput).details =
      some (truncateDetails longOutput) := rfl
  rw [h1, Option.getD_some]
  unfold truncateDetails
  have hdata : longOutput.data = List.replicate 301 'a' := rfl
  have h3 : longOutput.data.length = 301 := by rw [hdata, List.length_replicate]
  have hlen : longOutput.length = 301 := by
    have h0 : longOutput.length = longOutput.data.length := rfl
    rw [h0, h3]
  rw [String.length_append, if_pos (by rw [hlen]; omega)]
  have htake : (longOutput.take 300).length = 300 := by
    rw [String.take_eq]
    have h2 : (String.mk (longOutput.data.take 300)).length =
        (longOutput.data.take 300).length := rfl
    rw [h2, List.length_take, h3]
    omega
  have h4 : ("..." : String).length = 3 := rfl
  omega

theorem isReady_resolves {task : Task} {tasks : List Task}
    (h : isReady task tasks = true) :
    ∀ d ∈ task.dependencies, ∃ u, tasks.find? (fun t => t.id == d) = some u ∧
      u.status = TaskStatus.completed := by
  unfold isReady at h
  rw [Bool.and_eq_true, List.all_eq_true] at h
  intro d hd
  have h2 := h.2 d hd
  cases hfind : tasks.find? (fun t => t.id == d) with
  | none => rw [hfind] at h2; exact absurd h2 (by simp)
  | some u =>
      rw [hfind] at h2
      exact ⟨u, rfl, of_decide_eq_true h2⟩

/-- C8 (amended): for a ready task whose resolved dependencies carry an
output (the completed-implies-output invariant), the assembled context
is the blank-line-joined concatenation of one block per dependency ID
in order — each block `Task "<title>":`, a newline and the resolved
dependency's output — followed, when at least one artifact exists, by a
newline, the `Existing Files:` header and one `- <path>` line per
artifact; with an empty store nothing is appended after the blocks. -/
theorem context_assembly_amended (task : Task) (tasks : List Task)
    (files : List ProjectFile)
    (hready : isReady task tasks = true)
    (hinv : ∀ u ∈ tasks, u.status = TaskStatus.completed → u.output ≠ none) :
    ∃ blocks : List String,
      buildContext task tasks files =
        String.intercalate "\n\n" blocks ++
          (if files.length > 0 then
            "\nExisting Files:\n" ++
              String.intercalate "\n" (files.map (fun f => "- " ++ f.path))
          else "") ∧
      blocks.length = task.dependencies.length ∧
      (∀ i, i < task.dependencies.length →
        ∃ u out, tasks.find? (fun t => t.id == task.dependencies.getD i "") = some u ∧
          u.status = TaskStatus.completed ∧ u.output = some out ∧
          blocks.getD i "" = "Task \"" ++ u.title ++ "\":\n" ++ out) := by
  refine ⟨task.dependencies.map (fun depId =>
    match tasks.find? (fun t => t.id == depId) with
    | some t => "Task \"" ++ t.title ++ "\":\n" ++ t.output.getD "undefined"
    | none => ""), rfl, by simp, ?_⟩
  intro i hi
  have hdmem : task.dependencies.getD i "" ∈ task.dependencies := by
    rw [List.getD_eq_getElem?_getD, List.getElem?_eq_getElem hi, Option.getD_some]
    exact List.getElem_mem hi
  obtain ⟨u, hfind, hstat⟩ := isReady_resolves hready _ hdmem
  have humem : u ∈ tasks := List.mem_of_find?_eq_some hfind
  cases hout : u.output with
  | none => exact absurd hout (hinv u humem hstat)
  | some out =>
      refine ⟨u, out, hfind, hstat, hout, ?_⟩
      have hblock : (task.dependencies.map (fun depId =>
          match tasks.find? (fun t => t.id == depId) with
          | some t => "Task \"" ++ t.title ++ "\":\n" ++ t.output.getD "undefined"
          | none => "")).getD i "" =
          (match tasks.find? (fun t => t.id == task.dependencies.getD i "") with
          | some t => "Task \"" ++ t.title ++ "\":\n" ++ t.output.getD "undefined"
          | none => "") := by
        rw [List.getD_eq_getElem?_getD, List.getElem?_map, List.getElem?_eq_getElem hi]
        rw [List.getD_eq_getElem?_getD, List.getElem?_eq_getElem hi]
        rfl
      rw [hblock, hfind]
      show "Task \"" ++ u.title ++ "\":\n" ++ u.output.getD "undefined" = _
      rw [hout]
      rfl

/-- Concrete instance of `context_assembly_amended`: one completed
dependency and one artifact in the store. -/
theorem context_assembly_amended_witness :
    buildContext samplePending [sampleDone, samplePending] sampleStore =
      "Task \"A\":\nout" ++ "\nExisting Files:\n" ++ "- a.ts\n- b.css" := by
  obtain ⟨blocks, heq, hlen, hblocks⟩ :=
    context_assembly_amended samplePending [sampleDone, samplePending] sampleStore
      (by decide) (by decide)
  rw [heq]
  obtain ⟨u, out, hfind, hstat, hout, hb⟩ := hblocks 0 (by decide)
  have hu : u = sampleDone := by
    have hf2 : ([sampleDone, samplePending].find? (fun t =>
        t.id == samplePending.dependencies.getD 0 "")) = some sampleDone := by decide
    rw [hf2] at hfind
    exact (Option.some_inj.mp hfind).symm
  have hout2 : out = "out" := by
    rw [hu] at hout
    have : sampleDone.output = some "out" := rfl
    rw [this] at hout
    exact (Option.some_inj.mp hout).symm
  have hblocks1 : blocks.length = 1 := by
    rw [hlen]
    rfl
  have hb0 : blocks.getD 0 "" = "Task \"A\":\nout" := by
    rw [hb, hu, hout2]
    rfl
  cases blocks with
  | nil => simp at hblocks1
  | cons b bs =>
      cases bs with
      | nil =>
          have hbval : b = "Task \"A\":\nout" := hb0
          rw [hbval]
          rfl
      | cons b2 bs2 => simp at hblocks1

/-- C8 (counterexample): for a ready task and an empty artifact store
the assembled context is just the dependency blocks — the mandated
`Existing Files:` listing marker appears nowhere in it, so the context
is not followed by a path listing of that form. -/
theorem context_assembly_counterexample :
    buildContext samplePending [sampleDone, samplePending] [] = "Task \"A\":\nout" ∧
    (∀ j, j < (buildContext samplePending [sampleDone, samplePending] []).data.length →
      ((buildContext samplePending [sampleDone, samplePending] []).data.drop j).take 15 ≠
        "Existing Files:".data) := by
  constructor
  · rfl
  · decide

/-- A well-formed file block as the extraction grammar sees it: the
whitespace runs, quotes, path and content between the fixed literals. -/
structure FileBlock where
  ws1 : List Char
  q1 : Char
  path : List Char
  q2 : Char
  ws2 : List Char
  content : List Char

/-- The text of a file block: the grammar
`<file<ws1>path=<q1>PATH<q2><ws2>>CONTENT</file>`. -/
def renderBlock (b : FileBlock) : List Char :=
  "<file".data ++ b.ws1 ++ "path=".data ++ [b.q1] ++ b.path ++ [b.q2] ++
    b.ws2 ++ ">".data ++ b.content ++ "</file>".data

/-- Side conditions under which the grammar matches a block: non-empty
whitespace after `<file`, single or double quotes, a non-empty
quote-free path, whitespace before `>`, and a content free of the
closing tag. -/
def WellFormedBlock (b : FileBlock) : Prop :=
  b.ws1 ≠ [] ∧ (∀ c ∈ b.ws1, isJsSpace c = true) ∧
  isQuoteChar b.q1 = true ∧ isQuoteChar b.q2 = true ∧
  b.path ≠ [] ∧ (∀ c ∈ b.path, isQuoteChar c = false) ∧
  (∀ c ∈ b.ws2, isJsSpace c = true) ∧
  (∀ j, j < b.content.length → (b.content.drop j).take 7 ≠ "</file>".data)

instance (b : FileBlock) : Decidable (WellFormedBlock b) := by
  unfold WellFormedBlock
  infer_instance

theorem fileOpen_no_overlap :
    ∀ k, k < 5 → 0 < k → "<file".data.drop k ≠ "<file".data.take (5 - k) := by
  decide

theorem closeTag_no_overlap :
    ∀ k, k < 7 → 0 < k → "</file>".data.drop k ≠ "</file>".data.take (7 - k) := by
  decide

theorem take_of_append_eq {pat a b : List Char} {n : Nat}
    (h : (a ++ b).take n = pat) (hlen : a.length < n) :
    a = pat.take a.length ∧ b.take (n - a.length) = pat.drop a.length := by
  rw [List.take_append_eq_append_take, List.take_of_length_le (by omega)] at h
  constructor
  · rw [← h, List.take_left]
  · rw [← h, List.drop_left]

theorem matchFileAt_eq_none {s : List Char} (h : s.take 5 ≠ "<file".data) :
    matchFileAt s = none := by
  unfold matchFileAt dropToken
  have h5 : ("<file".data).length = 5 := rfl
  rw [h5, if_neg h]
  rfl

theorem no_fileopen_in_seps {sep rest : List Char}
    (hs : ∀ j, j < sep.length → (sep.drop j).take 5 ≠ "<file".data)
    (hr : rest = [] ∨ rest.take 5 = "<file".data) :
    ∀ j, j < sep.length → ((sep ++ rest).drop j).take 5 ≠ "<file".data := by
  intro j hj hcontra
  rw [List.drop_append_of_le_length (by omega)] at hcontra
  have hdlen : (sep.drop j).length = sep.length - j := List.length_drop j sep
  by_cases h5 : 5 ≤ (sep.drop j).length
  · rw [List.take_append_of_le_length h5] at hcontra
    exact hs j hj hcontra
  · push_neg at h5
    have hd0 : 0 < (sep.drop j).length := by omega
    obtain ⟨hd1, hd2⟩ := take_of_append_eq hcontra h5
    rcases hr with hnil | hpat
    · rw [hnil, List.take_nil] at hd2
      have hlen2 : ("<file".data.drop (sep.drop j).length).length =
          5 - (sep.drop j).length := by
        rw [List.length_drop]
        rfl
      rw [← hd2] at hlen2
      simp at hlen2
      omega
    · have hres : rest.take (5 - (sep.drop j).length) =
          "<file".data.take (5 - (sep.drop j).length) := by
        rw [← hpat, List.take_take]
        congr 1
        omega
      rw [hres] at hd2
      exact fileOpen_no_overlap (sep.drop j).length h5 hd0 hd2.symm

theorem extractLoop_append_skip : ∀ {sep rest : List Char},
    (∀ j, j < sep.length → ((sep ++ rest).drop j).take 5 ≠ "<file".data) →
    extractLoop (sep ++ rest) = extractLoop rest := by
  intro sep
  induction sep with
  | nil => intro rest _; rfl
  | cons c cs ih =>
      intro rest h
      have h0 : matchFileAt (c :: (cs ++ rest)) = none := by
        apply matchFileAt_eq_none
        have := h 0 (by simp)
        simpa using this
      have hcons : (c :: cs) ++ rest = c :: (cs ++ rest) := rfl
      rw [hcons, extractLoop_cons_none h0]
      refine ih (fun j hj => ?_)
      have := h (j + 1) (by simp; omega)
      simpa using this

theorem dropToken_exact (pat r : List Char) : dropToken pat (pat ++ r) = some r := by
  unfold dropToken
  rw [if_pos (List.take_left pat r), List.drop_left]

theorem splitAtCloseTag_cons (c : Char) (cs : List Char) :
    splitAtCloseTag (c :: cs) =
      if (c :: cs).take 7 = "</file>".data then some ([], (c :: cs).drop 7)
      else
        match splitAtCloseTag cs with
        | some cr => some (c :: cr.1, cr.2)
        | none => none := rfl

theorem takeWhile_all_stop {p : Char → Bool} {a : List Char} {x : Char} {y : List Char}
    (ha : ∀ c ∈ a, p c = true) (hx : p x = false) :
    (a ++ x :: y).takeWhile p = a ∧ (a ++ x :: y).dropWhile p = x :: y := by
  constructor
  · rw [List.takeWhile_append_of_pos ha, List.takeWhile_cons_of_neg (by simp [hx])]
    simp
  · rw [List.dropWhile_append_of_pos ha, List.dropWhile_cons_of_neg (by simp [hx])]

theorem splitAtCloseTag_exact : ∀ (content t : List Char),
    (∀ j, j < content.length → (content.drop j).take 7 ≠ "</file>".data) →
    splitAtCloseTag (content ++ "</file>".data ++ t) = some (content, t) := by
  intro content
  induction content with
  | nil =>
      intro t _
      have hform : ([] : List Char) ++ "</file>".data ++ t = '<' :: ("/file>".data ++ t) := rfl
      rw [hform, splitAtCloseTag_cons]
      have htk : ('<' :: ("/file>".data ++ t)).take 7 = "</file>".data := by
        have : '<' :: ("/file>".data ++ t) = "</file>".data ++ t := rfl
        rw [this]
        exact List.take_left' rfl
      rw [if_pos htk]
      have hdr : ('<' :: ("/file>".data ++ t)).drop 7 = t := by
        have : '<' :: ("/file>".data ++ t) = "</file>".data ++ t := rfl
        rw [this]
        exact List.drop_left' rfl
      rw [hdr]
  | cons x xs ih =>
      intro t hno
      have hform : (x :: xs) ++ "</file>".data ++ t = x :: (xs ++ "</file>".data ++ t) := by
        simp
      rw [hform, splitAtCloseTag_cons]
      have hneq : ¬ (x :: (xs ++ "</file>".data ++ t)).take 7 = "</file>".data := by
        intro hcontra
        have hx7 : x :: (xs ++ "</file>".data ++ t) = (x :: xs) ++ ("</file>".data ++ t) := by
          simp
        rw [hx7] at hcontra
        by_cases h7 : 7 ≤ (x :: xs).length
        · rw [List.take_append_of_le_length h7] at hcontra
          exact hno 0 (by simp) (by simpa using hcontra)
        · push_neg at h7
          obtain ⟨hd1, hd2⟩ := take_of_append_eq hcontra h7
          have hres : ("</file>".data ++ t).take (7 - (x :: xs).length) =
              "</file>".data.take (7 - (x :: xs).length) := by
            exact List.take_append_of_le_length (by
              have : ("</file>".data).length = 7 := rfl
              omega)
          rw [hres] at hd2
          exact closeTag_no_overlap (x :: xs).length h7 (by simp) hd2.symm
      rw [if_neg hneq]
      have hrec : splitAtCloseTag (xs ++ "</file>".data ++ t) = some (xs, t) :=
        ih t (fun j hj => by
          have := hno (j + 1) (by simp; omega)
          simpa using this)
      simp only [hrec]

theorem matchFileAt_render (b : FileBlock) (t : List Char) (hb : WellFormedBlock b) :
    matchFileAt (renderBlock b ++ t) = some (b.path, b.content, t) := by
  obtain ⟨hws1, hws1s, hq1, hq2, hpne, hpq, hws2s, hnoclose⟩ := hb
  have e1 : renderBlock b ++ t =
      "<file".data ++ (b.ws1 ++ ("path=".data ++ ([b.q1] ++ (b.path ++ ([b.q2] ++
        (b.ws2 ++ (">".data ++ (b.content ++ ("</file>".data ++ t))))))))) := by
    simp [renderBlock]
  unfold matchFileAt
  rw [e1, dropToken_exact, Option.some_bind]
  have e2 : b.ws1 ++ ("path=".data ++ ([b.q1] ++ (b.path ++ ([b.q2] ++
        (b.ws2 ++ (">".data ++ (b.content ++ ("</file>".data ++ t)))))))) =
      b.ws1 ++ 'p' :: ("ath=".data ++ ([b.q1] ++ (b.path ++ ([b.q2] ++
        (b.ws2 ++ (">".data ++ (b.content ++ ("</file>".data ++ t)))))))) := rfl
  obtain ⟨htw1, hdw1⟩ := takeWhile_all_stop (p := isJsSpace)
    (a := b.ws1)
    (x := 'p')
    (y := "ath=".data ++ ([b.q1] ++ (b.path ++ ([b.q2] ++
      (b.ws2 ++ (">".data ++ (b.content ++ ("</file>".data ++ t))))))))
    hws1s (by decide)
  have hts1 : takeSpaces1 (b.ws1 ++ ('p' :: ("ath=".data ++ ([b.q1] ++ (b.path ++ ([b.q2] ++
        (b.ws2 ++ (">".data ++ (b.content ++ ("</file>".data ++ t)))))))))) =
      some ('p' :: ("ath=".data ++ ([b.q1] ++ (b.path ++ ([b.q2] ++
        (b.ws2 ++ (">".data ++ (b.content ++ ("</file>".data ++ t)))))))) ) := by
    unfold takeSpaces1
    rw [htw1, hdw1]
    rw [if_neg (by
      intro hzero
      exact hws1 (List.length_eq_zero.mp hzero))]
  rw [e2, hts1, Option.some_bind]
  have e3 : 'p' :: ("ath=".data ++ ([b.q1] ++ (b.path ++ ([b.q2] ++
        (b.ws2 ++ (">".data ++ (b.content ++ ("</file>".data ++ t)))))))) =
      "path=".data ++ ([b.q1] ++ (b.path ++ ([b.q2] ++
        (b.ws2 ++ (">".data ++ (b.content ++ ("</file>".data ++ t))))))) := rfl
  rw [e3, dropToken_exact, Option.some_bind]
  have hq1step : takeQuote ([b.q1] ++ (b.path ++ ([b.q2] ++
        (b.ws2 ++ (">".data ++ (b.content ++ ("</file>".data ++ t))))))) =
      some (b.path ++ ([b.q2] ++
        (b.ws2 ++ (">".data ++ (b.content ++ ("</file>".data ++ t)))))) := by
    have ecast : [b.q1] ++ (b.path ++ ([b.q2] ++
        (b.ws2 ++ (">".data ++ (b.content ++ ("</file>".data ++ t)))))) =
        b.q1 :: (b.path ++ ([b.q2] ++
        (b.ws2 ++ (">".data ++ (b.content ++ ("</file>".data ++ t)))))) := rfl
    rw [ecast]
    simp only [takeQuote]
    rw [if_pos hq1]
  rw [hq1step, Option.some_bind]
  have hpq' : ∀ c ∈ b.path, (!(isQuoteChar c)) = true := fun c hc => by
    rw [hpq c hc]; rfl
  have hq2' : (!(isQuoteChar b.q2)) = false := by rw [hq2]; rfl
  have e4 : b.path ++ ([b.q2] ++ (b.ws2 ++ (">".data ++ (b.content ++
        ("</file>".data ++ t))))) =
      b.path ++ b.q2 :: (b.ws2 ++ (">".data ++ (b.content ++
        ("</file>".data ++ t)))) := rfl
  obtain ⟨htw2, hdw2⟩ := takeWhile_all_stop (p := fun c => !(isQuoteChar c))
    (a := b.path)
    (x := b.q2)
    (y := b.ws2 ++ (">".data ++ (b.content ++ ("</file>".data ++ t))))
    hpq' hq2'
  have hpstep : takePath (b.path ++ b.q2 :: (b.ws2 ++ (">".data ++ (b.content ++
        ("</file>".data ++ t))))) =
      some (b.path, b.q2 :: (b.ws2 ++ (">".data ++ (b.content ++
        ("</file>".data ++ t))))) := by
    unfold takePath
    rw [htw2, hdw2]
    rw [if_neg (by
      intro hzero
      exact hpne (List.length_eq_zero.mp hzero))]
  rw [e4, hpstep, Option.some_bind]
  have hq2step : takeQuote (b.q2 :: (b.ws2 ++ (">".data ++ (b.content ++
        ("</file>".data ++ t))))) =
      some (b.ws2 ++ (">".data ++ (b.content ++ ("</file>".data ++ t)))) := by
    simp only [takeQuote]
    rw [if_pos hq2]
  rw [hq2step, Option.some_bind]
  have e5 : b.ws2 ++ (">".data ++ (b.content ++ ("</file>".data ++ t))) =
      b.ws2 ++ '>' :: (b.content ++ ("</file>".data ++ t)) := rfl
  obtain ⟨htw3, hdw3⟩ := takeWhile_all_stop (p := isJsSpace)
    (a := b.ws2)
    (x := '>')
    (y := b.content ++ ("</file>".data ++ t))
    hws2s (by decide)
  have e6 : ('>' : Char) :: (b.content ++ ("</file>".data ++ t)) =
      ">".data ++ (b.content ++ ("</file>".data ++ t)) := rfl
  rw [e5, hdw3, e6, dropToken_exact, Option.some_bind]
  have hsplit : splitAtCloseTag (b.content ++ ("</file>".data ++ t)) =
      some (b.content, t) := by
    have : b.content ++ ("</file>".data ++ t) = b.content ++ "</file>".data ++ t := by
      simp
    rw [this]
    exact splitAtCloseTag_exact b.content t hnoclose
  rw [hsplit, Option.map_some']

/-- A document as the claim sees it: a leading separator text, then an
alternation of file blocks and separator texts. -/
def renderDoc (s0 : List Char) (items : List (FileBlock × List Char)) : List Char :=
  s0 ++ (items.map (fun bi => renderBlock bi.1 ++ bi.2)).join

theorem extractLoop_eq_of_match {s : List Char}
    {pcr : List Char × List Char × List Char}
    (h0 : matchFileAt s = some pcr) :
    extractLoop s = (pcr.1, pcr.2.1) :: extractLoop pcr.2.2 := by
  cases s with
  | nil =>
      exfalso
      have : matchFileAt [] = none := matchFileAt_eq_none (by decide)
      rw [this] at h0
      exact Option.noConfusion h0
  | cons c cs => exact extractLoop_cons_some h0

theorem renderBlock_take5 (b : FileBlock) (t : List Char) :
    (renderBlock b ++ t).take 5 = "<file".data := by
  have e1 : renderBlock b ++ t = "<file".data ++ (b.ws1 ++ "path=".data ++ [b.q1] ++
      b.path ++ [b.q2] ++ b.ws2 ++ ">".data ++ b.content ++ "</file>".data ++ t) := by
    simp [renderBlock]
  rw [e1]
  exact List.take_left' rfl

theorem extractLoop_renderDoc : ∀ (items : List (FileBlock × List Char)) (s0 : List Char),
    (∀ bi ∈ items, WellFormedBlock bi.1) →
    (∀ j, j < s0.length → (s0.drop j).take 5 ≠ "<file".data) →
    (∀ bi ∈ items, ∀ j, j < bi.2.length → (bi.2.drop j).take 5 ≠ "<file".data) →
    extractLoop (renderDoc s0 items) =
      items.map (fun bi => (bi.1.path, bi.1.content)) := by
  intro items
  induction items with
  | nil =>
      intro s0 _ hs0 _
      have hdoc : renderDoc s0 [] = s0 := by simp [renderDoc]
      rw [hdoc, List.map_nil]
      exact extractLoop_of_no_match s0 (fun j hj => matchFileAt_eq_none (hs0 j hj))
  | cons bi items ih =>
      intro s0 hb hs0 hsep
      obtain ⟨b, sep⟩ := bi
      have hdoc : renderDoc s0 ((b, sep) :: items) =
          s0 ++ (renderBlock b ++ renderDoc sep items) := by
        simp [renderDoc]
      rw [hdoc]
      have hstart : (renderBlock b ++ renderDoc sep items).take 5 = "<file".data :=
        renderBlock_take5 b (renderDoc sep items)
      rw [extractLoop_append_skip (no_fileopen_in_seps hs0 (Or.inr hstart))]
      have hwf : WellFormedBlock b := hb (b, sep) (List.mem_cons_self _ _)
      have hm : matchFileAt (renderBlock b ++ renderDoc sep items) =
          some (b.path, b.content, renderDoc sep items) :=
        matchFileAt_render b (renderDoc sep items) hwf
      rw [extractLoop_eq_of_match hm]
      have hrec := ih sep
        (fun x hx => hb x (List.mem_cons_of_mem _ hx))
        (hsep (b, sep) (List.mem_cons_self _ _))
        (fun x hx => hsep x (List.mem_cons_of_mem _ hx))
      rw [hrec]
      rfl

/-- C7: the extraction function applied to a document consisting of
separator texts (containing no occurrence of the opening literal) and
well-formed file blocks returns exactly those blocks, in order of first
occurrence, with both single and double quotes accepted, whitespace
tolerated around the tag, each path taken verbatim and each content
trimmed of leading and trailing whitespace. -/
theorem extract_blocks_spec (s0 : List Char) (items : List (FileBlock × List Char))
    (hb : ∀ bi ∈ items, WellFormedBlock bi.1)
    (hs0 : ∀ j, j < s0.length → (s0.drop j).take 5 ≠ "<file".data)
    (hsep : ∀ bi ∈ items, ∀ j, j < bi.2.length → (bi.2.drop j).take 5 ≠ "<file".data) :
    extractFilesFromOutput (String.mk (renderDoc s0 items)) =
      items.map (fun bi =>
        { path := String.mk bi.1.path,
          content := String.mk (trimChars bi.1.content),
          language := inferLanguage (String.mk bi.1.path) }) := by
  unfold extractFilesFromOutput
  have hdata : (String.mk (renderDoc s0 items)).data = renderDoc s0 items := rfl
  rw [hdata, extractLoop_renderDoc items s0 hb hs0 hsep, List.map_map]
  rfl

/-- Sample file blocks for the extraction witness: double quotes with
minimal whitespace, and single quotes with extra whitespace and
padded content. -/
def sampleBlock1 : FileBlock :=
  { ws1 := [' '], q1 := '"', path := "a.ts".data, q2 := '"', ws2 := [],
    content := "let x = 1".data }

/-- Second sample block, single-quoted, whitespace before `>` and
around the content. -/
def sampleBlock2 : FileBlock :=
  { ws1 := [' ', '\t'], q1 := '\'', path := "b.css".data, q2 := '\'', ws2 := [' '],
    content := (" body {} " : String).data }

set_option maxRecDepth 16000 in
/-- Concrete instance of `extract_blocks_spec`: two blocks with
interleaved separator text extract to exactly the two artifacts with
trimmed contents. -/
theorem extract_blocks_spec_witness :
    extractFilesFromOutput (String.mk (renderDoc "intro ".data
      [(sampleBlock1, " middle ".data), (sampleBlock2, " end".data)])) =
      [{ path := "a.ts", content := "let x = 1", language := "javascript" },
       { path := "b.css", content := "body {}", language := "css" }] := by
  rw [extract_blocks_spec "intro ".data
      [(sampleBlock1, " middle ".data), (sampleBlock2, " end".data)]
      (by decide) (by decide) (by decide)]
  decide
